import Mathlib

/-!
Verification of the coordinate-projection and incremental path-rendering
engine of the strava-viz repository (src/components/RouteMap.tsx).

Numbers are modelled as rationals; JS Math.round is Mathlib round
(floor of x + 1/2, which agrees with Math.round on all inputs), Math.ceil
is the integer or natural ceiling. The drawing surface is modelled as the
list of draw calls issued to it, in order; two renders that issue the same
draw calls in the same order produce the same pixels.
-/

/-- Latitude normalization from RouteMap.tsx: normalizeLat(lat) = 90 - lat. -/
def normalizeLat (lat : ℚ) : ℚ := 90 - lat

/-- Longitude normalization from RouteMap.tsx: normalizeLon(lon) = 180 + lon. -/
def normalizeLon (lon : ℚ) : ℚ := 180 + lon

/-- A geographic coordinate pair, as in the Coords interface. -/
structure Coords where
  lat : ℚ
  lon : ℚ
deriving DecidableEq, Repr, Inhabited

/-- Normalization of a coordinate pair, as in normalizeCoordinates. -/
def normalizeCoordinates (c : Coords) : ℚ × ℚ :=
  (normalizeLon c.lon, normalizeLat c.lat)

/-- A rectangular geographic window, as in the GeoBounds interface. -/
structure GeoBounds where
  leftLon : ℚ
  rightLon : ℚ
  upperLat : ℚ
  lowerLat : ℚ
deriving DecidableEq, Repr

/-- Projection from RouteMap.tsx, coordinatesToBoundedCanvasPoint: maps a
coordinate into integer pixel space of a canvas of the given width and
height representing a window into geoBounds. The canvas context argument
of the source carries only canvas.width and canvas.height, passed here
directly. -/
def coordinatesToBoundedCanvasPoint (c : Coords) (canvasWidth canvasHeight : ℚ)
    (geoBounds : GeoBounds) : ℤ × ℤ :=
  let normalizedCoords := normalizeCoordinates c
  let normalizedMinX := normalizeLon geoBounds.leftLon
  let normalizedMaxX := normalizeLon geoBounds.rightLon
  let normalizedMinY := normalizeLat geoBounds.upperLat
  let normalizedMaxY := normalizeLat geoBounds.lowerLat
  let xRange := normalizedMaxX - normalizedMinX
  let yRange := normalizedMaxY - normalizedMinY
  let xRelativeToBounds := (normalizedCoords.1 - normalizedMinX) / xRange
  let yRelativeToBounds := (normalizedCoords.2 - normalizedMinY) / yRange
  (round (xRelativeToBounds * canvasWidth), round (yRelativeToBounds * canvasHeight))

/-- Maximum surface width in pixels, MAX_WIDTH in RouteMap.tsx. -/
def MAX_WIDTH : ℚ := 20000

/-- Longitudinal span of the bounds in degrees, widthInDegrees in RouteMap.tsx. -/
def widthInDegrees (b : GeoBounds) : ℚ := |b.leftLon - b.rightLon|

/-- Latitudinal span of the bounds in degrees, heightInDegrees in RouteMap.tsx. -/
def heightInDegrees (b : GeoBounds) : ℚ := |b.upperLat - b.lowerLat|

/-- Aspect ratio of the bounds, aspectRatio in RouteMap.tsx. -/
def aspectRatio (b : GeoBounds) : ℚ := widthInDegrees b / heightInDegrees b

/-- Canvas width, effectiveWidth in RouteMap.tsx: the longitudinal span times
mapResolution (pixels per degree), capped at MAX_WIDTH. -/
def effectiveWidth (b : GeoBounds) (mapResolution : ℚ) : ℚ :=
  min (widthInDegrees b * mapResolution) MAX_WIDTH

/-- Canvas height, effectiveHeight in RouteMap.tsx: the effective width divided
by the aspect ratio. -/
def effectiveHeight (b : GeoBounds) (mapResolution : ℚ) : ℚ :=
  effectiveWidth b mapResolution / aspectRatio b

/-- A waypoint is a coordinate pair, as in the Waypoint type alias. -/
abbrev Waypoint := Coords

/-- A route, as in the Route type of RouteMap.tsx. The id, name, startDate and
type fields are opaque to the rendering engine, which reads only the
waypoints; startDate and activity type are carried here as plain data. -/
structure Route where
  id : ℕ
  name : String
  startDate : ℤ
  activityType : String
  waypoints : List Waypoint
deriving DecidableEq, Repr

/-- Index-based list filter: models the two-argument callback form of
Array.prototype.filter used in renderRoutes, whose predicate reads only the
element index. The second argument is the index of the head of the list. -/
def filterIdx {α : Type*} (p : ℕ → Bool) : ℕ → List α → List α
  | _, [] => []
  | i, a :: t => if p i then a :: filterIdx p (i + 1) t else filterIdx p (i + 1) t

/-- Decimation predicate of renderRoutes: keep index 0, indices divisible by
renderEveryNthPoint, and the last index of the full sequence of length n. -/
def keepWaypoint (n renderEveryNthPoint i : ℕ) : Bool :=
  i == 0 || i % renderEveryNthPoint == 0 || i == n - 1

/-- renderEveryNthPoint from renderRoutes: the ceiling of 1 / pathResolution. -/
def renderEveryNthPoint (pathResolution : ℚ) : ℕ := ⌈1 / pathResolution⌉₊

/-- waypointsToRender from renderRoutes: the decimated waypoint sequence,
filtering the waypoints of a route by the decimation predicate. -/
def waypointsToRender (wps : List Waypoint) (n : ℕ) : List Waypoint :=
  filterIdx (keepWaypoint wps.length n) 0 wps

/-- A drawn segment: the pair of geographic endpoints passed to addPath. -/
abbrev Seg := Waypoint × Waypoint

/-- addPath from RouteMap.tsx: strokes a line between the projections of the
two endpoints; modelled as the draw call it issues, namely the pair of
projected pixel points. Stroke style (thickness, cap, join, color) does not
affect which segments are drawn. -/
def addPath (canvasWidth canvasHeight : ℚ) (geoBounds : GeoBounds) (s : Seg) :
    (ℤ × ℤ) × (ℤ × ℤ) :=
  (coordinatesToBoundedCanvasPoint s.1 canvasWidth canvasHeight geoBounds,
   coordinatesToBoundedCanvasPoint s.2 canvasWidth canvasHeight geoBounds)

/-- Segments drawn by a loop drawing the segment from waypoints[t-1] to
waypoints[t] for each index t in the interval from i inclusive to j
exclusive, in order. Indices whose lookups fall outside the list contribute
nothing; in every use below they are all in range. -/
def segsRange (wps : List Waypoint) (i j : ℕ) : List Seg :=
  (List.range' i (j - i)).filterMap (fun t =>
    match wps[t - 1]?, wps[t]? with
    | some a, some b => some (a, b)
    | _, _ => none)

/-- Trace of the instantaneous branch of renderRoutes for one track: the for
loop from index 1 to the end of the decimated list, drawing consecutive
pairs. -/
def instantSegs (wps : List Waypoint) : List Seg := segsRange wps 1 wps.length

/-- Closure state of the step callback in animateRenderWaypoints: the draw
cursor waypointIndex and the clock reading taken when the last segment was
drawn, none before the first draw. -/
structure AnimState where
  waypointIndex : ℕ
  lastPointAddedAtTime : Option ℚ
deriving DecidableEq, Repr

/-- Initial closure state of animateRenderWaypoints: waypointIndex is 1 and no
segment has been drawn yet. -/
def initAnimState : AnimState := ⟨1, none⟩

/-- Per-segment time budget from animateRenderWaypoints:
delay = (duration / pointsToRender) * 0.8. -/
def animDelay (duration : ℚ) (pointsToRender : ℕ) : ℚ :=
  duration / pointsToRender * 0.8

/-- Catch-up loop body of the step callback in animateRenderWaypoints: runs
the given number of iterations; on each, if waypoints[waypointIndex] exists
it draws the segment from the previous waypoint to it and advances the
cursor by one, otherwise the iteration does nothing. Returns the segments
drawn, in order, and the final cursor. -/
def catchUp (wps : List Waypoint) : ℕ → ℕ → List Seg × ℕ
  | 0, idx => ([], idx)
  | k + 1, idx =>
    match wps[idx]?, wps[idx - 1]? with
    | some b, some a =>
      let rest := catchUp wps k (idx + 1)
      ((a, b) :: rest.1, rest.2)
    | _, _ => catchUp wps k idx

/-- One invocation of the step callback of animateRenderWaypoints, at
requestAnimationFrame timestamp ts, with the monotone clock (performance.now)
reading now for this tick. Returns the updated closure state and the segments
drawn during this tick. The error value models the runtime TypeError of the
first-tick branch, which destructures waypoints[waypointIndex - 1] and
waypoints[waypointIndex] unconditionally and so throws on a track with fewer
than two waypoints. On later ticks, if the time since the last draw has
reached the budget, the callback draws ceil(timeDiff / delay) segments via
the catch-up loop, stopping early only when the track is exhausted; the
last-draw clock reading is updated only when some segment was drawn. -/
def stepAnim (wps : List Waypoint) (delay : ℚ) (ts now : ℚ) (s : AnimState) :
    Except Unit (AnimState × List Seg) :=
  match s.lastPointAddedAtTime with
  | none =>
    match wps[s.waypointIndex - 1]?, wps[s.waypointIndex]? with
    | some a, some b => .ok (⟨s.waypointIndex + 1, some now⟩, [(a, b)])
    | _, _ => .error ()
  | some lastTime =>
    let timeDiff := ts - lastTime
    if delay ≤ timeDiff then
      let numPointsToRenderThisFrame := (⌈timeDiff / delay⌉).toNat
      let r := catchUp wps numPointsToRenderThisFrame s.waypointIndex
      .ok (⟨r.2, if r.2 = s.waypointIndex then some lastTime else some now⟩, r.1)
    else
      .ok (s, [])

/-- Runs the animation of animateRenderWaypoints against a schedule of ticks,
each supplying the requestAnimationFrame timestamp and the performance.now
reading for that tick. After each tick the callback schedules another tick
while waypointIndex < waypoints.length, and resolves the promise otherwise.
Returns the draw trace together with true when the promise resolved within
the schedule, or with false when the animation is still in flight after the
last tick; the error propagates the first-tick TypeError. -/
def runAnim (wps : List Waypoint) (delay : ℚ) :
    List (ℚ × ℚ) → AnimState → Except Unit (List Seg × Bool)
  | [], _ => .ok ([], false)
  | (ts, now) :: rest, s =>
    match stepAnim wps delay ts now s with
    | .error e => .error e
    | .ok (s2, ds) =>
      if s2.waypointIndex < wps.length then
        match runAnim wps delay rest s2 with
        | .error e => .error e
        | .ok (tr, resolved) => .ok (ds ++ tr, resolved)
      else
        .ok (ds, true)

/-- Error message thrown by renderRoutes for a pathResolution outside (0, 1];
the source interpolates the offending value into the message, kept fixed
here. -/
def invalidResolutionMsg : String :=
  "Invalid value for pathResolution. Must be in the range (0, 1]"

/-- Instantaneous renderRoutes (duration 0): for each route in order,
validate pathResolution, decimate, then draw every consecutive segment of
the decimated sequence. Returns the segments drawn, in order, and the error
raised, if any. The validation sits inside the per-route loop, before any
drawing for that route, so a failure leaves the draws of earlier loop
iterations standing; with an empty route list the loop body never runs. -/
def renderRoutesInstant (pathResolution : ℚ) : List Route → List Seg × Option String
  | [] => ([], none)
  | r :: rs =>
    if pathResolution ≤ 0 ∨ 1 < pathResolution then ([], some invalidResolutionMsg)
    else
      let wps := waypointsToRender r.waypoints (renderEveryNthPoint pathResolution)
      let rest := renderRoutesInstant pathResolution rs
      (instantSegs wps ++ rest.1, rest.2)

/-- Animated renderRoutes (duration positive): for each route in order,
validate pathResolution, decimate, then await the animated rendering of the
decimated sequence, driven by the ticks the host schedules for that route.
Routes render strictly sequentially: the await forces each animation to
resolve before the next route starts. Returns the full draw trace when every
animation resolves within its schedule, none when some animation is still in
flight or crashed, and the thrown message for an invalid pathResolution. -/
def renderRoutesAnim (pathResolution duration : ℚ) :
    List Route → List (List (ℚ × ℚ)) → Except String (Option (List Seg))
  | [], _ => .ok (some [])
  | r :: rs, scheds =>
    if pathResolution ≤ 0 ∨ 1 < pathResolution then .error invalidResolutionMsg
    else
      let wps := waypointsToRender r.waypoints (renderEveryNthPoint pathResolution)
      match runAnim wps (animDelay duration wps.length) (scheds.headD []) initAnimState with
      | .ok (tr, true) =>
        match renderRoutesAnim pathResolution duration rs scheds.tail with
        | .ok (some rest) => .ok (some (tr ++ rest))
        | .ok none => .ok none
        | .error e => .error e
      | _ => .ok none

/-- Modelled from the spec: the host scheduling primitive of section 6 is
external to this repository, so a pending scheduled tick is modelled by the
numeric handle the host returned when it was scheduled together with the
draw calls its callback would issue if it fired. -/
structure PendingTick where
  handle : ℕ
  draws : List Seg
deriving DecidableEq, Repr

/-- Cancellation sweep of the useEffect in RouteMap.tsx: the loop for i from
1 while i is less than 99999 calls clearInterval(i) and
cancelAnimationFrame(i), cancelling every pending tick whose handle lies in
that range. The result is the list of ticks surviving the sweep, namely
those with handles outside the swept range. -/
def cancelSweep (pending : List PendingTick) : List PendingTick :=
  pending.filter (fun p => !(decide (1 ≤ p.handle) && decide (p.handle < 99999)))

/-- Modelled from the spec: final surface contents across a re-render, per
the cancellation contract of section 5. The new render call clears the
canvas and issues its own draws; every tick of the superseded render that
survived the cancellation sweep then fires and appends its stale draws on
top of the new output. -/
def finalSurfaceAfterRerender (pending : List PendingTick) (secondDraws : List Seg) :
    List Seg :=
  secondDraws ++ (cancelSweep pending).flatMap PendingTick.draws

/-- C1. Projection correctness: with bounds
leftLon = -10, rightLon = 10, upperLat = 10, lowerLat = -10 and a 100 by 100
surface, the point lat 0, lon 0 projects to pixel (50, 50) and the point
lat 10, lon -10 projects to pixel (0, 0); in general, for non-degenerate
bounds, x = round(((180+lon) - (180+leftLon)) / ((180+rightLon) - (180+leftLon)) * width)
and y = round(((90-lat) - (90-upperLat)) / ((90-lowerLat) - (90-upperLat)) * height). -/
theorem projection_correctness (c : Coords) (b : GeoBounds) (w h : ℚ)
    (hx : b.leftLon < b.rightLon) (hy : b.lowerLat < b.upperLat) :
    coordinatesToBoundedCanvasPoint ⟨0, 0⟩ 100 100 ⟨-10, 10, 10, -10⟩ = (50, 50) ∧
    coordinatesToBoundedCanvasPoint ⟨10, -10⟩ 100 100 ⟨-10, 10, 10, -10⟩ = (0, 0) ∧
    coordinatesToBoundedCanvasPoint c w h b =
      (round (((180 + c.lon) - (180 + b.leftLon)) /
          ((180 + b.rightLon) - (180 + b.leftLon)) * w),
       round (((90 - c.lat) - (90 - b.upperLat)) /
          ((90 - b.lowerLat) - (90 - b.upperLat)) * h)) := by
  refine ⟨?_, ?_, ?_⟩ <;>
    norm_num [coordinatesToBoundedCanvasPoint, normalizeCoordinates, normalizeLat,
      normalizeLon, round_eq, Prod.ext_iff]

/-- Witness for C1 at concrete non-degenerate bounds. -/
theorem projection_correctness_witness :
    (-10 : ℚ) < 10 ∧ (-10 : ℚ) < 10 ∧
    coordinatesToBoundedCanvasPoint ⟨0, 0⟩ 100 100 ⟨-10, 10, 10, -10⟩ = (50, 50) :=
  ⟨by norm_num, by norm_num,
    (projection_correctness ⟨0, 0⟩ ⟨-10, 10, 10, -10⟩ 100 100 (by norm_num) (by norm_num)).1⟩

/-- C7. Surface sizing: for non-degenerate bounds the computed surface width is
min of the longitudinal degree span times pixelsPerDegree and 20000, the height
is the width divided by the aspect ratio, and the width never exceeds the
20000 pixel cap for any bounds and any pixelsPerDegree. -/
theorem surface_sizing (b : GeoBounds) (ppd : ℚ)
    (hx : b.leftLon < b.rightLon) (hy : b.lowerLat < b.upperLat) :
    effectiveWidth b ppd = min (|b.leftLon - b.rightLon| * ppd) 20000 ∧
    effectiveHeight b ppd =
      effectiveWidth b ppd / (|b.leftLon - b.rightLon| / |b.upperLat - b.lowerLat|) ∧
    effectiveWidth b ppd ≤ 20000 := by
  refine ⟨rfl, rfl, ?_⟩
  exact min_le_right _ _

/-- Witness for C7 at concrete non-degenerate bounds. -/
theorem surface_sizing_witness :
    ((-10 : ℚ) < 10 ∧ (-10 : ℚ) < 10) ∧
    effectiveWidth ⟨-10, 10, 10, -10⟩ 5000 ≤ 20000 :=
  ⟨⟨by norm_num, by norm_num⟩,
    (surface_sizing ⟨-10, 10, 10, -10⟩ 5000 (by norm_num) (by norm_num)).2.2⟩

/-- The first element of an index-filtered list is the original head when the
predicate holds at the head index. -/
theorem filterIdx_head {α : Type*} (p : ℕ → Bool) (a : α) (t : List α) (i : ℕ)
    (hp : p i = true) : (filterIdx p i (a :: t)).head? = some a := by
  simp [filterIdx, hp]

/-- Dropping the head of a list with a nonempty tail keeps the last element. -/
theorem getLast?_cons_of_ne_nil {α : Type*} (a : α) (l : List α) (h : l ≠ []) :
    (a :: l).getLast? = l.getLast? := by
  cases l with
  | nil => exact absurd rfl h
  | cons b t => exact List.getLast?_cons_cons

/-- An index-filtered list keeps the last element of the input when the
predicate holds at the last index. -/
theorem filterIdx_getLast {α : Type*} (p : ℕ → Bool) :
    ∀ (l : List α) (i : ℕ), p (i + l.length - 1) = true → l ≠ [] →
      (filterIdx p i l).getLast? = l.getLast? := by
  intro l
  induction l with
  | nil => intro i _ h; exact absurd rfl h
  | cons a t ih =>
    intro i hp _
    cases t with
    | nil =>
      have hpi : p i = true := by simpa using hp
      simp [filterIdx, hpi]
    | cons b t2 =>
      have harg : (i + 1) + (b :: t2).length - 1 = i + (a :: b :: t2).length - 1 := by
        simp; omega
      have hrest : (filterIdx p (i + 1) (b :: t2)).getLast? = (b :: t2).getLast? :=
        ih (i + 1) (by rw [harg]; exact hp) (by simp)
      have hne : filterIdx p (i + 1) (b :: t2) ≠ [] := by
        intro hcontra
        have hsome : (b :: t2).getLast?.isSome := List.getLast?_isSome.mpr (by simp)
        rw [← hrest, hcontra] at hsome
        simp at hsome
      by_cases hpi : p i = true
      · rw [filterIdx, if_pos hpi, getLast?_cons_of_ne_nil _ _ hne, hrest,
          List.getLast?_cons_cons]
      · rw [filterIdx, if_neg hpi, hrest, List.getLast?_cons_cons]

/-- C3. Decimation preserves endpoints: for a waypoint sequence of length at
least two and any resolution in the interval (0, 1], the decimated sequence
produced by the filter keeps both the first and the last waypoint. -/
theorem decimation_preserves_endpoints (wps : List Waypoint) (r : ℚ)
    (hn : 2 ≤ wps.length) (h0 : 0 < r) (h1 : r ≤ 1) :
    (waypointsToRender wps (renderEveryNthPoint r)).head? = wps.head? ∧
    (waypointsToRender wps (renderEveryNthPoint r)).getLast? = wps.getLast? := by
  constructor
  · cases wps with
    | nil => simp at hn
    | cons a t =>
      rw [waypointsToRender, filterIdx_head _ a t 0 (by simp [keepWaypoint])]
      rfl
  · exact filterIdx_getLast _ wps 0
      (by simp [keepWaypoint]) (by intro h; rw [h] at hn; simp at hn)

/-- Witness for C3 on a concrete two-waypoint track at resolution 1. -/
theorem decimation_preserves_endpoints_witness :
    (2 ≤ ([⟨0, 0⟩, ⟨1, 1⟩] : List Waypoint).length ∧ (0 : ℚ) < 1 ∧ (1 : ℚ) ≤ 1) ∧
    (waypointsToRender [⟨0, 0⟩, ⟨1, 1⟩] (renderEveryNthPoint 1)).head? =
      ([⟨0, 0⟩, ⟨1, 1⟩] : List Waypoint).head? :=
  ⟨⟨by decide, by norm_num, le_refl 1⟩,
    (decimation_preserves_endpoints [⟨0, 0⟩, ⟨1, 1⟩] 1
      (by decide) (by norm_num) (le_refl 1)).1⟩

/-- The length of an index-filtered list is the number of indices of the input
positions at which the predicate holds. -/
theorem filterIdx_length {α : Type*} (p : ℕ → Bool) :
    ∀ (l : List α) (i : ℕ),
      (filterIdx p i l).length = ((List.range' i l.length).filter p).length := by
  intro l
  induction l with
  | nil => intro i; simp [filterIdx]
  | cons a t ih =>
    intro i
    rw [List.length_cons, List.range'_succ]
    by_cases hpi : p i = true
    · simp [filterIdx, hpi, ih]
    · simp [filterIdx, hpi, ih]

/-- Bridge between list-level filtered length and Finset-level filtered card. -/
theorem length_filter_range_eq_card (n : ℕ) (p : ℕ → Bool) :
    ((List.range n).filter p).length =
      ((Finset.range n).filter (fun i => p i = true)).card := by
  induction n with
  | zero => simp
  | succ n ih =>
    rw [List.range_succ, List.filter_append, List.length_append, ih,
      Finset.range_succ, Finset.filter_insert]
    by_cases h : p n = true
    · rw [if_pos h, Finset.card_insert_of_not_mem (by simp)]
      simp [h]
    · rw [if_neg h]
      simp [List.filter, h]

/-- Counting argument: with a coarser divisibility step the decimation
predicate keeps at most as many indices. The injection sends a multiple of
the larger step to the matching multiple of the smaller step and fixes the
last index. -/
theorem keep_count_mono (n bigN m : ℕ) (hm : 1 ≤ m) (hmn : m ≤ bigN) :
    ((Finset.range n).filter (fun i => keepWaypoint n bigN i = true)).card ≤
    ((Finset.range n).filter (fun i => keepWaypoint n m i = true)).card := by
  apply Finset.card_le_card_of_injOn (fun i => if i = n - 1 then n - 1 else i / bigN * m)
  · intro i hi
    simp only [Finset.mem_filter, Finset.mem_range, keepWaypoint, Bool.or_eq_true,
      beq_iff_eq, or_assoc] at hi ⊢
    obtain ⟨hilt, hkeep⟩ := hi
    by_cases hlast : i = n - 1
    · rw [if_pos hlast]
      exact ⟨by omega, Or.inr (Or.inr rfl)⟩
    · have hdvd : bigN ∣ i := by
        rcases hkeep with h0 | hmod | h
        · subst h0; exact dvd_zero _
        · exact Nat.dvd_of_mod_eq_zero hmod
        · exact absurd h hlast
      rw [if_neg hlast]
      refine ⟨?_, Or.inr (Or.inl (Nat.mul_mod_left _ _))⟩
      calc i / bigN * m ≤ i / bigN * bigN := Nat.mul_le_mul_left _ hmn
        _ = i := Nat.div_mul_cancel hdvd
        _ < n := hilt
  · intro i hi j hj hij
    have hIJ : (if i = n - 1 then n - 1 else i / bigN * m) =
        (if j = n - 1 then n - 1 else j / bigN * m) := hij
    simp only [Finset.coe_filter, Finset.mem_range, Set.mem_setOf_eq, keepWaypoint,
      Bool.or_eq_true, beq_iff_eq, or_assoc] at hi hj
    obtain ⟨hilt, hkeepi⟩ := hi
    obtain ⟨hjlt, hkeepj⟩ := hj
    have divOf : ∀ k, k < n → (k = 0 ∨ k % bigN = 0 ∨ k = n - 1) → k ≠ n - 1 → bigN ∣ k := by
      intro k _ hk hkne
      rcases hk with h0 | hmod | h
      · subst h0; exact dvd_zero _
      · exact Nat.dvd_of_mod_eq_zero hmod
      · exact absurd h hkne
    by_cases hi' : i = n - 1 <;> by_cases hj' : j = n - 1
    · rw [hi', hj']
    · exfalso
      have hdvdj := divOf j hjlt hkeepj hj'
      rw [if_pos hi', if_neg hj'] at hIJ
      have hjeq : j / bigN * bigN = j := Nat.div_mul_cancel hdvdj
      have hle : j / bigN * m ≤ j / bigN * bigN := Nat.mul_le_mul_left _ hmn
      omega
    · exfalso
      have hdvdi := divOf i hilt hkeepi hi'
      rw [if_neg hi', if_pos hj'] at hIJ
      have hieq : i / bigN * bigN = i := Nat.div_mul_cancel hdvdi
      have hle : i / bigN * m ≤ i / bigN * bigN := Nat.mul_le_mul_left _ hmn
      omega
    · have hdvdi := divOf i hilt hkeepi hi'
      have hdvdj := divOf j hjlt hkeepj hj'
      rw [if_neg hi', if_neg hj'] at hIJ
      have hdiv : i / bigN = j / bigN := Nat.eq_of_mul_eq_mul_right hm hIJ
      calc i = i / bigN * bigN := (Nat.div_mul_cancel hdvdi).symm
        _ = j / bigN * bigN := by rw [hdiv]
        _ = j := Nat.div_mul_cancel hdvdj

/-- Monotonicity of the decimated length in the divisibility step: a larger
step keeps at most as many waypoints. -/
theorem waypointsToRender_length_anti (wps : List Waypoint) (bigN m : ℕ)
    (hm : 1 ≤ m) (hmn : m ≤ bigN) :
    (waypointsToRender wps bigN).length ≤ (waypointsToRender wps m).length := by
  rw [waypointsToRender, waypointsToRender, filterIdx_length, filterIdx_length,
    ← List.range_eq_range', length_filter_range_eq_card, length_filter_range_eq_card]
  exact keep_count_mono _ _ _ hm hmn

/-- C8. Decimation monotonic density: for a fixed waypoint sequence the length
of the decimated sequence is non-decreasing as the resolution increases
within (0, 1]. -/
theorem decimation_monotone_density (wps : List Waypoint) (r s : ℚ)
    (h0 : 0 < r) (hrs : r ≤ s) (h1 : s ≤ 1) :
    (waypointsToRender wps (renderEveryNthPoint r)).length ≤
    (waypointsToRender wps (renderEveryNthPoint s)).length := by
  have h0s : 0 < s := lt_of_lt_of_le h0 hrs
  have hinv : 1 / s ≤ 1 / r := one_div_le_one_div_of_le h0 hrs
  have hceil : renderEveryNthPoint s ≤ renderEveryNthPoint r := Nat.ceil_le_ceil hinv
  have hone : 1 ≤ renderEveryNthPoint s :=
    Nat.one_le_ceil_iff.mpr (by positivity)
  exact waypointsToRender_length_anti wps _ _ hone hceil

/-- Witness for C8 at concrete resolutions one half and one. -/
theorem decimation_monotone_density_witness :
    ((0 : ℚ) < 1 / 2 ∧ (1 : ℚ) / 2 ≤ 1 ∧ (1 : ℚ) ≤ 1) ∧
    (waypointsToRender [⟨0, 0⟩, ⟨1, 1⟩, ⟨2, 2⟩] (renderEveryNthPoint (1 / 2))).length ≤
    (waypointsToRender [⟨0, 0⟩, ⟨1, 1⟩, ⟨2, 2⟩] (renderEveryNthPoint 1)).length :=
  ⟨⟨by norm_num, by norm_num, le_refl 1⟩,
    decimation_monotone_density [⟨0, 0⟩, ⟨1, 1⟩, ⟨2, 2⟩] (1 / 2) 1
      (by norm_num) (by norm_num) (le_refl 1)⟩

/-- A segment range over an empty index interval is empty. -/
theorem segsRange_self (wps : List Waypoint) (i : ℕ) : segsRange wps i i = [] := by
  simp [segsRange]

/-- Unfolding one index from the front of a segment range when both endpoint
lookups succeed. -/
theorem segsRange_cons (wps : List Waypoint) (i j : ℕ) (hij : i < j)
    (a b : Waypoint) (ha : wps[i - 1]? = some a) (hb : wps[i]? = some b) :
    segsRange wps i j = (a, b) :: segsRange wps (i + 1) j := by
  have h1 : j - i = (j - (i + 1)) + 1 := by omega
  rw [segsRange, h1, List.range'_succ, List.filterMap_cons]
  simp only [ha, hb]
  rfl

/-- Segment ranges over adjacent index intervals concatenate. -/
theorem segsRange_glue (wps : List Waypoint) (i j k : ℕ) (h1 : i ≤ j) (h2 : j ≤ k) :
    segsRange wps i j ++ segsRange wps j k = segsRange wps i k := by
  rw [segsRange, segsRange, segsRange, ← List.filterMap_append]
  congr 1
  have hk : k - i = (k - j) + (j - i) := by omega
  have hj : j = i + (j - i) := by omega
  conv_rhs => rw [hk, ← List.range'_append_1]
  rw [← hj]

/-- Closed form of the catch-up loop: starting at cursor idx with k
iterations it draws min k (remaining) segments, the consecutive segments
from idx on, and advances the cursor accordingly. -/
theorem catchUp_spec (wps : List Waypoint) :
    ∀ (k idx : ℕ), catchUp wps k idx =
      (segsRange wps idx (idx + min k (wps.length - idx)),
       idx + min k (wps.length - idx)) := by
  intro k
  induction k with
  | zero => intro idx; simp [catchUp, segsRange]
  | succ k ih =>
    intro idx
    cases hb : wps[idx]? with
    | none =>
      have hlen : wps.length ≤ idx := List.getElem?_eq_none_iff.mp hb
      have hmin : min (k + 1) (wps.length - idx) = 0 := by omega
      have hmin2 : min k (wps.length - idx) = 0 := by omega
      simp [catchUp, hb, ih idx, hmin, hmin2, segsRange]
    | some b =>
      have hidx : idx < wps.length := by
        rcases List.getElem?_eq_some_iff.mp hb with ⟨hh, _⟩; exact hh
      have ha : wps[idx - 1]? = some (wps.get ⟨idx - 1, by omega⟩) :=
        List.getElem?_eq_getElem (by omega)
      have hb' : wps.get ⟨idx, hidx⟩ = b := by
        rcases List.getElem?_eq_some_iff.mp hb with ⟨_, hh⟩; exact hh
      have hEnd : idx + min (k + 1) (wps.length - idx) =
          (idx + 1) + min k (wps.length - (idx + 1)) := by omega
      have hcons : segsRange wps idx (idx + min (k + 1) (wps.length - idx)) =
          (wps.get ⟨idx - 1, by omega⟩, b) ::
            segsRange wps (idx + 1) ((idx + 1) + min k (wps.length - (idx + 1))) := by
        rw [segsRange_cons wps idx _ (by omega) _ b ha hb, hEnd]
      simp only [catchUp, hb, ha, ih (idx + 1)]
      rw [hcons, hEnd]

/-- The catch-up loop draws exactly min k (remaining) segments. -/
theorem catchUp_length (wps : List Waypoint) (k idx : ℕ) :
    (catchUp wps k idx).1.length = min k (wps.length - idx) := by
  rw [catchUp_spec]
  rcases Nat.le_total wps.length idx with hle | hle
  · have : min k (wps.length - idx) = 0 := by omega
    rw [this]
    simp [segsRange]
  · generalize hm : min k (wps.length - idx) = m
    have hbound : idx + m ≤ wps.length := by omega
    clear hm
    induction m generalizing idx with
    | zero => simp [segsRange]
    | succ m ihm =>
      have hidx : idx < wps.length := by omega
      have hstep : segsRange wps idx (idx + (m + 1)) =
          (wps.get ⟨idx - 1, by omega⟩, wps.get ⟨idx, hidx⟩) ::
            segsRange wps (idx + 1) ((idx + 1) + m) := by
        have harr : idx + (m + 1) = (idx + 1) + m := by omega
        rw [segsRange_cons wps idx _ (by omega) _ _
          (List.getElem?_eq_getElem (by omega)) (List.getElem?_eq_getElem hidx), harr]
        rfl
      rw [hstep]
      simp only [List.length_cons]
      rw [ihm (idx + 1) (by omega) (by omega)]

/-- Any successful tick of the step callback draws exactly the consecutive
segments between the old and the new cursor, never moves the cursor
backwards, and never moves it past the end of the track. -/
theorem stepAnim_ok_spec (wps : List Waypoint) (delay ts now : ℚ)
    (s s2 : AnimState) (ds : List Seg)
    (h : stepAnim wps delay ts now s = .ok (s2, ds)) :
    ds = segsRange wps s.waypointIndex s2.waypointIndex ∧
    s.waypointIndex ≤ s2.waypointIndex ∧
    s2.waypointIndex ≤ max s.waypointIndex wps.length := by
  obtain ⟨idx, last⟩ := s
  cases last with
  | none =>
    cases ha : wps[idx - 1]? with
    | none => simp [stepAnim, ha] at h
    | some a =>
      cases hb : wps[idx]? with
      | none => simp [stepAnim, ha, hb] at h
      | some b =>
        have hidx : idx < wps.length := by
          rcases List.getElem?_eq_some_iff.mp hb with ⟨hh, _⟩; exact hh
        simp only [stepAnim, ha, hb, Except.ok.injEq, Prod.mk.injEq] at h
        obtain ⟨hs2, hds⟩ := h
        subst hs2
        subst hds
        refine ⟨?_, by simp, by simp; omega⟩
        rw [segsRange_cons wps idx (idx + 1) (by omega) a b ha hb, segsRange_self]
  | some t0 =>
    simp only [stepAnim] at h
    by_cases hif : delay ≤ ts - t0
    · rw [if_pos hif] at h
      simp only [Except.ok.injEq, Prod.mk.injEq] at h
      obtain ⟨hs2, hds⟩ := h
      subst hs2
      subst hds
      rw [catchUp_spec]
      dsimp only
      exact ⟨rfl, by omega, by omega⟩
    · rw [if_neg hif] at h
      simp only [Except.ok.injEq, Prod.mk.injEq] at h
      obtain ⟨hs2, hds⟩ := h
      subst hs2
      subst hds
      exact ⟨(segsRange_self wps idx).symm, le_refl _, by simp⟩

/-- If the animation promise resolves within the schedule, the trace drawn
from any in-progress state is exactly the remaining consecutive segments. -/
theorem runAnim_resolved (wps : List Waypoint) (delay : ℚ) :
    ∀ (ticks : List (ℚ × ℚ)) (s : AnimState) (tr : List Seg),
      s.waypointIndex < wps.length →
      runAnim wps delay ticks s = .ok (tr, true) →
      tr = segsRange wps s.waypointIndex wps.length := by
  intro ticks
  induction ticks with
  | nil => intro s tr _ h; simp [runAnim] at h
  | cons tk rest ih =>
    obtain ⟨ts, now⟩ := tk
    intro s tr hlt h
    simp only [runAnim] at h
    cases hstep : stepAnim wps delay ts now s with
    | error e => rw [hstep] at h; simp at h
    | ok p =>
      obtain ⟨s2, ds⟩ := p
      rw [hstep] at h
      dsimp only at h
      obtain ⟨hds, hle, hmax⟩ := stepAnim_ok_spec wps delay ts now s s2 ds hstep
      have hub : s2.waypointIndex ≤ wps.length := by omega
      by_cases h2 : s2.waypointIndex < wps.length
      · rw [if_pos h2] at h
        cases hrec : runAnim wps delay rest s2 with
        | error e => rw [hrec] at h; simp at h
        | ok q =>
          obtain ⟨tr2, resolved⟩ := q
          rw [hrec] at h
          simp only [Except.ok.injEq, Prod.mk.injEq] at h
          obtain ⟨htr, hres⟩ := h
          subst hres
          have htr2 := ih s2 tr2 h2 hrec
          rw [← htr, htr2, hds]
          exact segsRange_glue wps _ _ _ hle hub
      · rw [if_neg h2] at h
        simp only [Except.ok.injEq, Prod.mk.injEq] at h
        obtain ⟨htr, _⟩ := h
        have hexact : s2.waypointIndex = wps.length := by omega
        rw [← htr, hds, hexact]

/-- A resolved animation run from the initial state draws exactly the
instantaneous trace. Tracks with fewer than two waypoints cannot resolve:
the first tick throws. -/
theorem runAnim_complete_eq_instant (wps : List Waypoint) (delay : ℚ)
    (ticks : List (ℚ × ℚ)) (tr : List Seg)
    (h : runAnim wps delay ticks initAnimState = .ok (tr, true)) :
    tr = instantSegs wps := by
  by_cases hlen : 1 < wps.length
  · exact runAnim_resolved wps delay ticks initAnimState tr (by simpa [initAnimState]) h
  · exfalso
    cases ticks with
    | nil => simp [runAnim] at h
    | cons tk rest =>
      obtain ⟨ts, now⟩ := tk
      have hb : wps[(1 : ℕ)]? = none := List.getElem?_eq_none (by omega)
      cases ha : wps[(0 : ℕ)]? <;>
        simp [runAnim, stepAnim, initAnimState, ha, hb] at h

/-- C2. Instantaneous versus animated equivalence: for a fixed track, any
animated run that resolves draws exactly the segments of the instantaneous
loop, so mapping the projection of addPath over both traces yields the same
pixel draw calls on any canvas and bounds; animation changes only timing,
never which segments end up drawn. -/
theorem instantaneous_animated_equivalence (wps : List Waypoint)
    (delay w h : ℚ) (b : GeoBounds) (ticks : List (ℚ × ℚ)) (tr : List Seg)
    (hrun : runAnim wps delay ticks initAnimState = .ok (tr, true)) :
    tr = instantSegs wps ∧
    tr.map (addPath w h b) = (instantSegs wps).map (addPath w h b) := by
  have heq := runAnim_complete_eq_instant wps delay ticks tr hrun
  exact ⟨heq, by rw [heq]⟩

/-- Witness for C2 on a concrete two-waypoint track resolving in one tick. -/
theorem instantaneous_animated_equivalence_witness :
    runAnim [⟨0, 0⟩, ⟨1, 1⟩] 40 [(0, 5)] initAnimState =
      .ok ([(⟨0, 0⟩, ⟨1, 1⟩)], true) ∧
    ([(⟨0, 0⟩, ⟨1, 1⟩)] : List Seg) = instantSegs [⟨0, 0⟩, ⟨1, 1⟩] := by
  have hrun : runAnim [⟨0, 0⟩, ⟨1, 1⟩] 40 [(0, 5)] initAnimState =
      .ok ([(⟨0, 0⟩, ⟨1, 1⟩)], true) := by
    simp [runAnim, stepAnim, initAnimState]
  exact ⟨hrun,
    (instantaneous_animated_equivalence [⟨0, 0⟩, ⟨1, 1⟩] 40 1 1 ⟨0, 1, 1, 0⟩
      [(0, 5)] [(⟨0, 0⟩, ⟨1, 1⟩)] hrun).1⟩

/-- C5. Catch-up animation policy: the per-segment budget is
(duration / n) * 0.8 for a track of n waypoints; the first scheduling tick
draws exactly one segment and advances the cursor to 2; and on a later tick
whose elapsed time since the last draw reaches the budget, exactly
ceil(elapsed / budget) further segments are drawn, fewer only if the track
is exhausted, each advancing the cursor by one. -/
theorem catch_up_animation_policy (wps : List Waypoint) (duration ts now t0 : ℚ)
    (idx : ℕ) (hlen : 2 ≤ wps.length)
    (helapsed : animDelay duration wps.length ≤ ts - t0) :
    animDelay duration wps.length = duration / (wps.length : ℚ) * 0.8 ∧
    (∃ fstSeg, stepAnim wps (animDelay duration wps.length) ts now initAnimState =
      .ok (⟨2, some now⟩, [fstSeg])) ∧
    (∀ s2 ds,
      stepAnim wps (animDelay duration wps.length) ts now ⟨idx, some t0⟩ = .ok (s2, ds) →
      ds.length =
        min ((⌈(ts - t0) / animDelay duration wps.length⌉).toNat) (wps.length - idx) ∧
      s2.waypointIndex = idx + ds.length) := by
  refine ⟨rfl, ?_, ?_⟩
  · have h0 : wps[(0 : ℕ)]? = some (wps.get ⟨0, by omega⟩) :=
      List.getElem?_eq_getElem (by omega)
    have h1 : wps[(1 : ℕ)]? = some (wps.get ⟨1, by omega⟩) :=
      List.getElem?_eq_getElem (by omega)
    exact ⟨(wps.get ⟨0, by omega⟩, wps.get ⟨1, by omega⟩),
      by simp [stepAnim, initAnimState, h0, h1]⟩
  · intro s2 ds h
    simp only [stepAnim, if_pos helapsed, Except.ok.injEq, Prod.mk.injEq] at h
    obtain ⟨hs2, hds⟩ := h
    subst hs2
    subst hds
    refine ⟨catchUp_length wps _ idx, ?_⟩
    dsimp only
    rw [catchUp_length, catchUp_spec]

/-- Witness for C5 on a concrete two-waypoint track with a duration of 100
and an elapsed time of 100. -/
theorem catch_up_animation_policy_witness :
    (2 ≤ ([⟨0, 0⟩, ⟨1, 1⟩] : List Waypoint).length ∧
      animDelay 100 ([⟨0, 0⟩, ⟨1, 1⟩] : List Waypoint).length ≤ 100 - 0) ∧
    animDelay 100 ([⟨0, 0⟩, ⟨1, 1⟩] : List Waypoint).length =
      100 / (([⟨0, 0⟩, ⟨1, 1⟩] : List Waypoint).length : ℚ) * 0.8 :=
  ⟨⟨by simp, by norm_num [animDelay]⟩,
    (catch_up_animation_policy [⟨0, 0⟩, ⟨1, 1⟩] 100 100 100 0 1
      (by simp) (by norm_num [animDelay])).1⟩

/-- A valid pathResolution never produces an error from the instantaneous
render loop, whatever the routes. -/
theorem renderRoutesInstant_valid_no_error (res : ℚ) (hval : ¬(res ≤ 0 ∨ 1 < res)) :
    ∀ routes : List Route, (renderRoutesInstant res routes).2 = none := by
  intro routes
  induction routes with
  | nil => rfl
  | cons r rs ih => simp [renderRoutesInstant, hval, ih]

/-- Decomposition of a completed animated render of a non-empty route list:
the trace splits into the first animation, which must have resolved, followed
by the trace of the remaining routes. -/
theorem renderRoutesAnim_cons_some (res duration : ℚ) (r : Route) (rs : List Route)
    (scheds : List (List (ℚ × ℚ))) (tr : List Seg) (hval : ¬(res ≤ 0 ∨ 1 < res))
    (h : renderRoutesAnim res duration (r :: rs) scheds = .ok (some tr)) :
    ∃ trR trRest, tr = trR ++ trRest ∧
      runAnim (waypointsToRender r.waypoints (renderEveryNthPoint res))
        (animDelay duration (waypointsToRender r.waypoints (renderEveryNthPoint res)).length)
        (scheds.headD []) initAnimState = .ok (trR, true) ∧
      renderRoutesAnim res duration rs scheds.tail = .ok (some trRest) := by
  simp only [renderRoutesAnim, if_neg hval] at h
  cases hA : runAnim (waypointsToRender r.waypoints (renderEveryNthPoint res))
      (animDelay duration (waypointsToRender r.waypoints (renderEveryNthPoint res)).length)
      (scheds.headD []) initAnimState with
  | error e => rw [hA] at h; simp at h
  | ok p =>
    obtain ⟨trR, resolved⟩ := p
    rw [hA] at h
    cases resolved with
    | false => simp at h
    | true =>
      dsimp only at h
      cases hrec : renderRoutesAnim res duration rs scheds.tail with
      | error e => rw [hrec] at h; simp at h
      | ok o =>
        rw [hrec] at h
        cases o with
        | none => simp at h
        | some rest =>
          simp only [Except.ok.injEq, Option.some.injEq] at h
          exact ⟨trR, rest, h.symm, rfl, rfl⟩

/-- C6. Sequential track ordering: with animation enabled and a valid
resolution, a completed render of tracks A then B draws exactly the
instantaneous trace of A followed by the instantaneous trace of B: no
segment of B is drawn before every segment of A, and within each track the
segments appear in waypoint order. -/
theorem sequential_track_ordering (A B : Route) (res duration : ℚ)
    (sA sB : List (ℚ × ℚ)) (tr : List Seg) (h0 : 0 < res) (h1 : res ≤ 1)
    (h : renderRoutesAnim res duration [A, B] [sA, sB] = .ok (some tr)) :
    tr = instantSegs (waypointsToRender A.waypoints (renderEveryNthPoint res)) ++
      instantSegs (waypointsToRender B.waypoints (renderEveryNthPoint res)) := by
  have hval : ¬(res ≤ 0 ∨ 1 < res) := by rintro (hc | hc) <;> linarith
  obtain ⟨trA, rest1, htr, hrunA, hrec⟩ :=
    renderRoutesAnim_cons_some res duration A [B] [sA, sB] tr hval h
  obtain ⟨trB, rest2, htr2, hrunB, hrec2⟩ :=
    renderRoutesAnim_cons_some res duration B [] [sB] rest1 hval hrec
  have hrest2 : rest2 = [] := by
    simp only [renderRoutesAnim, Except.ok.injEq, Option.some.injEq] at hrec2
    exact hrec2.symm
  have hAeq := runAnim_complete_eq_instant _ _ _ _ hrunA
  have hBeq := runAnim_complete_eq_instant _ _ _ _ hrunB
  rw [htr, htr2, hrest2, hAeq, hBeq, List.append_nil]

/-- Witness for C6: two concrete two-waypoint tracks, each resolving in a
single tick at resolution 1. -/
theorem sequential_track_ordering_witness :
    ((0 : ℚ) < 1 ∧ (1 : ℚ) ≤ 1 ∧
      renderRoutesAnim 1 100
        [⟨1, "a", 0, "Run", [⟨0, 0⟩, ⟨1, 1⟩]⟩, ⟨2, "b", 0, "Run", [⟨2, 2⟩, ⟨3, 3⟩]⟩]
        [[(0, 5)], [(0, 5)]] = .ok (some [(⟨0, 0⟩, ⟨1, 1⟩), (⟨2, 2⟩, ⟨3, 3⟩)])) ∧
    ([(⟨0, 0⟩, ⟨1, 1⟩), (⟨2, 2⟩, ⟨3, 3⟩)] : List Seg) =
      instantSegs (waypointsToRender [⟨0, 0⟩, ⟨1, 1⟩] (renderEveryNthPoint 1)) ++
      instantSegs (waypointsToRender [⟨2, 2⟩, ⟨3, 3⟩] (renderEveryNthPoint 1)) := by
  have hN : renderEveryNthPoint 1 = 1 := by
    rw [renderEveryNthPoint]
    norm_num
  have hrun : renderRoutesAnim 1 100
      [⟨1, "a", 0, "Run", [⟨0, 0⟩, ⟨1, 1⟩]⟩, ⟨2, "b", 0, "Run", [⟨2, 2⟩, ⟨3, 3⟩]⟩]
      [[(0, 5)], [(0, 5)]] = .ok (some [(⟨0, 0⟩, ⟨1, 1⟩), (⟨2, 2⟩, ⟨3, 3⟩)]) := by
    norm_num [renderRoutesAnim, hN, runAnim, stepAnim, initAnimState,
      waypointsToRender, keepWaypoint, filterIdx]
  exact ⟨⟨by norm_num, le_refl 1, hrun⟩,
    sequential_track_ordering ⟨1, "a", 0, "Run", [⟨0, 0⟩, ⟨1, 1⟩]⟩
      ⟨2, "b", 0, "Run", [⟨2, 2⟩, ⟨3, 3⟩]⟩ 1 100 [(0, 5)] [(0, 5)]
      [(⟨0, 0⟩, ⟨1, 1⟩), (⟨2, 2⟩, ⟨3, 3⟩)] (by norm_num) (le_refl 1) hrun⟩

/-- C4 counterexample: a render call with an empty route list raises no
error at resolution 0, in either mode, because the validation sits inside
the per-route loop; the claim as stated quantifies over every render call. -/
theorem invalid_resolution_rejection_cex :
    renderRoutesInstant 0 [] = ([], none) ∧
    renderRoutesAnim 0 750 [] [] = .ok (some []) :=
  ⟨rfl, rfl⟩

/-- C4 (amended to render calls with at least one track). Invalid resolution
rejection and atomicity: resolutions 0 and 3/2, and in general every value
outside (0, 1], make the render call fail with the InvalidConfiguration
message before any segment of the offending track is drawn, in both the
instantaneous and the animated mode; resolution 1 succeeds. Since the
resolution is shared by all tracks of a call, the failure occurs on the
first track, before anything is drawn. -/
theorem invalid_resolution_rejection (routes : List Route) (duration : ℚ)
    (scheds : List (List (ℚ × ℚ))) (hne : routes ≠ []) :
    renderRoutesInstant 0 routes = ([], some invalidResolutionMsg) ∧
    renderRoutesInstant (3 / 2) routes = ([], some invalidResolutionMsg) ∧
    (renderRoutesInstant 1 routes).2 = none ∧
    (∀ res : ℚ, res ≤ 0 ∨ 1 < res →
      renderRoutesInstant res routes = ([], some invalidResolutionMsg) ∧
      renderRoutesAnim res duration routes scheds = .error invalidResolutionMsg) := by
  obtain ⟨r, rs, rfl⟩ := List.exists_cons_of_ne_nil hne
  refine ⟨?_, ?_, ?_, ?_⟩
  · simp [renderRoutesInstant]
  · norm_num [renderRoutesInstant]
  · exact renderRoutesInstant_valid_no_error 1 (by norm_num) (r :: rs)
  · intro res hres
    exact ⟨by simp [renderRoutesInstant, hres], by simp [renderRoutesAnim, hres]⟩

/-- Witness for C4 on a concrete one-route list. -/
theorem invalid_resolution_rejection_witness :
    (([⟨1, "a", 0, "Run", [⟨0, 0⟩, ⟨1, 1⟩]⟩] : List Route) ≠ []) ∧
    renderRoutesInstant 0 [⟨1, "a", 0, "Run", [⟨0, 0⟩, ⟨1, 1⟩]⟩] =
      ([], some invalidResolutionMsg) :=
  ⟨by simp,
    (invalid_resolution_rejection [⟨1, "a", 0, "Run", [⟨0, 0⟩, ⟨1, 1⟩]⟩] 750 []
      (by simp)).1⟩

/-- C10. Implicit edge case: in instantaneous mode a route whose decimated
sequence has fewer than two waypoints draws no segments, and the render call
completes without error; the segment loop starting at index 1 performs no
iterations. -/
theorem short_track_instant_render (r : Route) (res : ℚ)
    (h0 : 0 < res) (h1 : res ≤ 1)
    (hshort : (waypointsToRender r.waypoints (renderEveryNthPoint res)).length < 2) :
    instantSegs (waypointsToRender r.waypoints (renderEveryNthPoint res)) = [] ∧
    renderRoutesInstant res [r] = ([], none) := by
  have hval : ¬(res ≤ 0 ∨ 1 < res) := by rintro (hc | hc) <;> linarith
  have hseg : instantSegs (waypointsToRender r.waypoints (renderEveryNthPoint res)) = [] := by
    rw [instantSegs, segsRange]
    have hz : (waypointsToRender r.waypoints (renderEveryNthPoint res)).length - 1 = 0 := by
      omega
    rw [hz]
    rfl
  refine ⟨hseg, ?_⟩
  simp [renderRoutesInstant, hval, hseg]

/-- Witness for C10 on a concrete single-waypoint route at resolution 1. -/
theorem short_track_instant_render_witness :
    ((0 : ℚ) < 1 ∧ (1 : ℚ) ≤ 1 ∧
      (waypointsToRender [⟨0, 0⟩] (renderEveryNthPoint 1)).length < 2) ∧
    renderRoutesInstant 1 [⟨1, "a", 0, "Run", [⟨0, 0⟩]⟩] = ([], none) := by
  have hN : renderEveryNthPoint 1 = 1 := by
    rw [renderEveryNthPoint]
    norm_num
  have hlen : (waypointsToRender [⟨0, 0⟩] (renderEveryNthPoint 1)).length < 2 := by
    simp [hN, waypointsToRender, filterIdx, keepWaypoint]
  exact ⟨⟨by norm_num, le_refl 1, hlen⟩,
    (short_track_instant_render ⟨1, "a", 0, "Run", [⟨0, 0⟩]⟩ 1
      (by norm_num) (le_refl 1) hlen).2⟩

/-- C9 counterexample: a pending tick of the superseded render whose handle
is 99999 survives the cancellation sweep, so its stale draw lands on top of
the fresh surface; the final surface then differs from a fresh render of
only the second call, refuting the claim that all scheduled ticks are
cancelled. -/
theorem cancellation_idempotence_cex :
    cancelSweep [⟨99999, [(⟨0, 0⟩, ⟨1, 1⟩)]⟩] = [⟨99999, [(⟨0, 0⟩, ⟨1, 1⟩)]⟩] ∧
    finalSurfaceAfterRerender [⟨99999, [(⟨0, 0⟩, ⟨1, 1⟩)]⟩] [] ≠ [] := by
  constructor
  · simp [cancelSweep]
  · simp [finalSurfaceAfterRerender, cancelSweep]

/-- C9 (amended to handles inside the swept range). Cancellation
idempotence: the useEffect sweep cancels exactly the scheduled ticks whose
handles lie in [1, 99999); when every pending tick of the superseded render
call has its handle in that range, which holds for the handles a real host
hands out until 99999 scheduling calls have been made, the final surface
equals a fresh, uninterrupted render of only the second call. -/
theorem cancellation_idempotence (pending : List PendingTick) (secondDraws : List Seg)
    (hall : ∀ p ∈ pending, 1 ≤ p.handle ∧ p.handle < 99999) :
    cancelSweep pending = [] ∧
    finalSurfaceAfterRerender pending secondDraws = secondDraws := by
  have hsweep : cancelSweep pending = [] := by
    rw [cancelSweep, List.filter_eq_nil_iff]
    intro p hp
    simp [hall p hp]
  refine ⟨hsweep, ?_⟩
  rw [finalSurfaceAfterRerender, hsweep]
  simp

/-- Witness for C9 with a single pending tick with handle 5. -/
theorem cancellation_idempotence_witness :
    (∀ p ∈ ([⟨5, []⟩] : List PendingTick), 1 ≤ p.handle ∧ p.handle < 99999) ∧
    finalSurfaceAfterRerender [⟨5, []⟩] [] = [] :=
  ⟨by simp, (cancellation_idempotence [⟨5, []⟩] [] (by simp)).2⟩
